import Mathlib

/-!
Shallow embedding of the chunked text-to-speech pipeline of
`src/services/geminiService.ts`: the segmenter `chunkText` (with its fixed
budget `MAX_CHAR_LIMIT = 3000`) and the synthesis/reassembly loop of
`generateSpeech`.

Strings are modelled as lists of characters; each `Char` stands for one
UTF-16 code unit, matching the unit on which the JavaScript string
operations (`length`, `substring`, `lastIndexOf`, `match`, `trim`) operate.
The splitting regular expression
`/[^.!?\n]+[.!?\n]+(\s+|$)|[^.!?\n]+$/g` is embedded as an explicit
backtracking matcher (`matchAt` / `scan`) with exactly the JavaScript
semantics: alternatives are tried left to right, `+` is greedy with
backtracking, `$` (no multiline flag) matches only at the very end of the
input, and the global scan restarts one position later when no match
starts at the current position.

The hard-split inner loop of `chunkText` does not terminate on every
input (see `hardSplit_stuck_none` below), so the loop is given an explicit
fuel parameter; `none` means the fuel ran out, i.e. the JavaScript loop is
still running.
-/

namespace GeminiService

/-- Strings as lists of UTF-16 code units. -/
abbrev Str := List Char

/-- Characters matched by the class `[.!?\n]` of the splitting regex. -/
def isDelim (c : Char) : Bool :=
  c = '.' || c = '!' || c = '?' || c = '\n'

/-- Characters matched by JavaScript `\s` (also exactly the set removed by
`String.prototype.trim`): tab through carriage return, space, NBSP, and the
Unicode space separators, line separators and BOM. -/
def isWs (c : Char) : Bool :=
  (9 ≤ c.toNat && c.toNat ≤ 13) || c.toNat = 32 || c.toNat = 0xA0 ||
  c.toNat = 0x1680 || (0x2000 ≤ c.toNat && c.toNat ≤ 0x200A) ||
  c.toNat = 0x2028 || c.toNat = 0x2029 || c.toNat = 0x202F ||
  c.toNat = 0x205F || c.toNat = 0x3000 || c.toNat = 0xFEFF

/-- JavaScript `String.prototype.trim`: drop `\s` characters at both ends. -/
def trim (s : Str) : Str :=
  ((s.dropWhile isWs).reverse.dropWhile isWs).reverse

/-- Longest prefix of `[^.!?\n]` characters at the current position
(the first `+` of alternative 1, which admits no useful backtracking:
shortening it makes the following delimiter class fail at once). -/
def nPart (s : Str) : Str := s.takeWhile (fun c => !(isDelim c))

/-- Rest of the input after `nPart`. -/
def afterN (s : Str) : Str := s.dropWhile (fun c => !(isDelim c))

/-- Longest run of `[.!?\n]` characters after `nPart` (the greedy second
`+` of alternative 1 before any backtracking). -/
def dPart (s : Str) : Str := (afterN s).takeWhile isDelim

/-- Rest of the input after the full delimiter run. -/
def afterD (s : Str) : Str := (afterN s).dropWhile isDelim

/-- Backtracking search for the largest `k` with `1 ≤ k ≤ length d` such
that, after keeping only the first `k` delimiter characters and giving the
rest back to the input, the group `(\s+|$)` matches: the remaining input
starts with a `\s` character or is empty. This is exactly how the
backtracking engine shrinks the greedy `[.!?\n]+`. -/
def findK : Nat → Str → Str → Option Nat
  | 0, _, _ => none
  | Nat.succ k, d, rest =>
    if !((d.drop (k+1) ++ rest).takeWhile isWs) = [] || (d.drop (k+1) ++ rest) = [] then
      some (k+1)
    else findK k d rest

/-- Alternative 1 of the regex, `[^.!?\n]+[.!?\n]+(\s+|$)`, attempted at
the start of `s`; returns the matched prefix and the remaining input. -/
def tryAlt1 (s : Str) : Option (Str × Str) :=
  if nPart s = [] then none
  else if dPart s = [] then none
  else
    match findK (dPart s).length (dPart s) (afterD s) with
    | some k =>
      some (nPart s ++ (dPart s).take k ++ ((dPart s).drop k ++ afterD s).takeWhile isWs,
            ((dPart s).drop k ++ afterD s).dropWhile isWs)
    | none => none

/-- Alternative 2 of the regex, `[^.!?\n]+$`: the whole remaining input is
nonempty and contains no delimiter. -/
def tryAlt2 (s : Str) : Option (Str × Str) :=
  if nPart s = [] then none
  else if afterN s = [] then some (nPart s, [])
  else none

/-- One attempt of the full alternation at the start of `s`. -/
def matchAt (s : Str) : Option (Str × Str) :=
  match tryAlt1 s with
  | some x => some x
  | none => tryAlt2 s

/-- Structural worker for the global scan; the fuel argument only makes
the recursion structural, every step consumes at least one character, so
fuel `s.length` is always enough (see `scanAux_fuel`). -/
def scanAux : Nat → Str → List Str
  | 0, _ => []
  | Nat.succ f, s =>
    match matchAt s with
    | some mr => mr.1 :: scanAux f mr.2
    | none =>
      match s with
      | [] => []
      | _ :: rest => scanAux f rest

/-- Global scan of the regex (the behaviour of `text.match(...)` with the
`g` flag): collect successive non-overlapping matches left to right,
advancing one position when no match starts at the current position. -/
def scan (s : Str) : List Str := scanAux s.length s

/-- Structural worker for `scanCovers`, with the same fuel scheme. -/
def scanCoversAux : Nat → Str → Bool
  | 0, s => s = []
  | Nat.succ f, s =>
    match matchAt s with
    | some mr => scanCoversAux f mr.2
    | none => s = []

/-- Whether the successive matches of the scan are contiguous and exhaust
the input (no character is skipped between or after matches). -/
def scanCovers (s : Str) : Bool := scanCoversAux s.length s

/-- Line 171 of `geminiService.ts`:
`text.match(/[^.!?\n]+[.!?\n]+(\s+|$)|[^.!?\n]+$/g) || [text]`
(`match` returns `null`, hence the `[text]` fallback, exactly when the scan
finds no match at all). -/
def rawSentences (text : Str) : List Str :=
  if scan text = [] then [text] else scan text

/-- Line 166 of `geminiService.ts`: `const MAX_CHAR_LIMIT = 3000`. -/
def MAX_CHAR_LIMIT : Nat := 3000

/-- JavaScript `remaining.lastIndexOf(' ', pos)`: index of the last space
at position at most `pos`, `none` for `-1`. -/
def lastSpaceLE (s : Str) (pos : Nat) : Option Nat :=
  match (s.take (pos+1)).reverse.findIdx? (fun c => c == ' ') with
  | some j => some ((s.take (pos+1)).length - 1 - j)
  | none => none

/-- Lines 190-191 of `geminiService.ts`:
`let breakIndex = remaining.lastIndexOf(' ', MAX_CHAR_LIMIT);`
`if (breakIndex === -1) breakIndex = MAX_CHAR_LIMIT;`. -/
def breakIdx (rem : Str) : Nat :=
  match lastSpaceLE rem MAX_CHAR_LIMIT with
  | some i => i
  | none => MAX_CHAR_LIMIT

/-- Lines 183-195 of `geminiService.ts`: the hard-split `while` loop over
`remaining`. Returns the updated `chunks` list together with the value of
`currentChunk` on exit. The loop need not terminate (see
`hardSplit_stuck_none`), so it is indexed by fuel; `none` means the fuel
ran out. -/
def hardSplit (fuel : Nat) (chunks : List Str) (remaining : Str) :
    Option (List Str × Str) :=
  match fuel with
  | 0 => none
  | Nat.succ f =>
    if remaining = [] then some (chunks, [])
    else if remaining.length ≤ MAX_CHAR_LIMIT then some (chunks, remaining)
    else hardSplit f (chunks ++ [trim (remaining.take (breakIdx remaining))])
           (remaining.drop (breakIdx remaining))

/-- Lines 175-202 of `geminiService.ts`: the `for` loop over
`rawSentences`, carrying `chunks` and `currentChunk`. A string is truthy in
JavaScript exactly when it is nonempty, which is how `if (currentChunk)`
and the final `if (currentChunk.trim())` are rendered. -/
def chunkLoop (fuel : Nat) (chunks : List Str) (currentChunk : Str) :
    List Str → Option (List Str × Str)
  | [] => some (chunks, currentChunk)
  | sentence :: rest =>
    if MAX_CHAR_LIMIT < sentence.length then
      match hardSplit fuel
          (if currentChunk = [] then chunks else chunks ++ [trim currentChunk])
          sentence with
      | none => none
      | some (chunks2, cc2) => chunkLoop fuel chunks2 cc2 rest
    else if (currentChunk ++ sentence).length ≤ MAX_CHAR_LIMIT then
      chunkLoop fuel chunks (currentChunk ++ sentence) rest
    else
      chunkLoop fuel (chunks ++ [trim currentChunk]) sentence rest

/-- Lines 168-209 of `geminiService.ts`: `chunkText`, with fuel for the
hard-split loop. -/
def chunkText (fuel : Nat) (text : Str) : Option (List Str) :=
  match chunkLoop fuel [] [] (rawSentences text) with
  | none => none
  | some (chunks, cc) =>
    some (if trim cc = [] then chunks else chunks ++ [trim cc])

/-- Non-whitespace content of a string, used to state that chunking never
reorders, drops or duplicates a non-whitespace character. -/
def nonWs (s : Str) : Str := s.filter (fun c => !(isWs c))

/-- Outcome of one call to the external synthesis capability
(`ai.models.generateContent` with the TTS model) for one chunk:
either the call throws, or it succeeds and its response carries an
optional inline audio payload. The payload is recorded as the decoded
bytes; `none` stands for an absent `inlineData.data` field. The base64
encoding is invertible (empty base64 text decodes to zero bytes and any
nonempty base64 text to at least one byte), so the JavaScript truthiness
test `if (base64Audio)` is rendered as: a payload is appended exactly when
it is present and its decoded bytes are nonempty. -/
inductive SynthResponse where
  | failure : SynthResponse
  | success : Option (List Nat) → SynthResponse
deriving DecidableEq

/-- State observable from the `for` loop of `generateSpeech` (lines
217-242 of `geminiService.ts`): the chunk texts for which a synthesis call
was issued, in order; the decoded audio payloads appended to
`audioChunks`, in order; and whether a call threw (which aborts the
loop). -/
structure LoopOut where
  calls : List Str
  payloads : List (List Nat)
  aborted : Bool
deriving DecidableEq

/-- Lines 236-241 of `geminiService.ts`: record one successful synthesis
call for chunk `c` on top of the outcome `out` of the rest of the loop.
The guard `if (base64Audio)` pushes the decoded payload exactly when the
inline payload is present and its decoded bytes are nonempty (base64 is
invertible, so an empty base64 text is exactly an empty byte payload). -/
def pushPayload (c : Str) (dat : Option (List Nat)) (out : LoopOut) : LoopOut :=
  match dat with
  | some bs =>
    if bs = [] then ⟨c :: out.calls, out.payloads, out.aborted⟩
    else ⟨c :: out.calls, bs :: out.payloads, out.aborted⟩
  | none => ⟨c :: out.calls, out.payloads, out.aborted⟩

/-- Lines 217-242 of `geminiService.ts`: the sequential `for` loop over
the chunks. A chunk whose trimmed text is empty is skipped with no call
(`if (!chunk.trim()) continue`); a throwing call stops the loop at once;
a successful call is recorded by `pushPayload`. -/
def processChunks (synth : Str → SynthResponse) : List Str → LoopOut
  | [] => ⟨[], [], false⟩
  | c :: rest =>
    if trim c = [] then processChunks synth rest
    else
      match synth c with
      | .failure => ⟨[c], [], true⟩
      | .success dat => pushPayload c dat (processChunks synth rest)

/-- One step of the concatenation loop (line 252 of `geminiService.ts`):
`combinedAudio.set(chunk, offset)` on a buffer modelled as a byte list. -/
def setAt (buf : List Nat) (off : Nat) (chunk : List Nat) : List Nat :=
  buf.take off ++ chunk ++ buf.drop (off + chunk.length)

/-- Lines 250-254 of `geminiService.ts`: copy each payload into the
combined buffer at its running offset. -/
def writeLoop : List (List Nat) → List Nat → Nat → List Nat
  | [], buf, _ => buf
  | c :: cs, buf, off => writeLoop cs (setAt buf off c) (off + c.length)

/-- Result of one run of `generateSpeech`: the synthesis calls made, the
payloads collected, and the outcome the caller sees. The `catch` block of
the source collapses every thrown error into one generic failure, modelled
as `Except.error ()`. -/
structure SpeechRun where
  calls : List Str
  payloads : List (List Nat)
  result : Except Unit (List Nat)

/-- Lines 211-263 of `geminiService.ts`: `generateSpeech`. The external
synthesis capability is a parameter `synth`; `fuel` feeds the chunker,
and `none` means `chunkText` is still looping. On a throwing synthesis
call the whole request fails with no partial result; otherwise, if the
accumulated `totalLength` is zero the request fails
(`throw new Error("No audio content generated from Gemini.")`), and
otherwise the payloads are copied in order into one fresh zero-filled
buffer of size `totalLength`. -/
def generateSpeech (synth : Str → SynthResponse) (fuel : Nat) (text : Str) :
    Option SpeechRun :=
  match chunkText fuel text with
  | none => none
  | some chunks =>
    if (processChunks synth chunks).aborted then
      some ⟨(processChunks synth chunks).calls,
            (processChunks synth chunks).payloads, .error ()⟩
    else if ((processChunks synth chunks).payloads.map List.length).sum = 0 then
      some ⟨(processChunks synth chunks).calls,
            (processChunks synth chunks).payloads, .error ()⟩
    else
      some ⟨(processChunks synth chunks).calls,
            (processChunks synth chunks).payloads,
            .ok (writeLoop (processChunks synth chunks).payloads
              (List.replicate
                (((processChunks synth chunks).payloads.map List.length).sum) 0)
              0)⟩

/-- Byte offset at which payload `i` starts inside the combined buffer:
the sum of the lengths of the earlier payloads. -/
def offsetBefore (ps : List (List Nat)) (i : Nat) : Nat :=
  ((ps.take i).map List.length).sum

/-- Input on which the hard-split loop never advances: a space followed by
3001 non-space characters. Its single raw unit is longer than the budget,
and the only space at position at most 3000 sits at index 0, so
`breakIndex` is 0, an empty piece is pushed, and `remaining` is left
unchanged forever. -/
def stuckInput : Str := ' ' :: List.replicate 3001 'a'

def synthConst : Str → SynthResponse :=
  fun _ => SynthResponse.success (some [5, 6, 7])

def synthFail : Str → SynthResponse :=
  fun _ => SynthResponse.failure

def synthMark : Str → SynthResponse :=
  fun s => if s = ['y'] then SynthResponse.success none
           else SynthResponse.success (some [1])

def sampleText : Str :=
  ['H', 'e', 'l', 'l', 'o', '.', '\n', '\n', '\n', 'W', 'o', 'r', 'l', 'd', '.']

theorem tryAlt1_spec {s m r : Str} (h : tryAlt1 s = some (m, r)) :
    m ≠ [] ∧ m ++ r = s := by
  unfold tryAlt1 at h
  by_cases hn : nPart s = []
  · simp [hn] at h
  · by_cases hd : dPart s = []
    · simp [hn, hd] at h
    · rw [if_neg hn, if_neg hd] at h
      cases hk : findK (dPart s).length (dPart s) (afterD s) with
      | none => rw [hk] at h; exact absurd h (by simp)
      | some k =>
        rw [hk] at h
        injection h with h
        injection h with hm hr
        constructor
        · intro hme
          rw [← hm] at hme
          exact hn (List.append_eq_nil.mp (List.append_eq_nil.mp hme).1).1
        · rw [← hm, ← hr]
          rw [List.append_assoc, List.append_assoc,
            List.takeWhile_append_dropWhile,
            ← List.append_assoc (List.take k (dPart s)),
            List.take_append_drop]
          show nPart s ++ (dPart s ++ afterD s) = s
          unfold dPart afterD
          rw [List.takeWhile_append_dropWhile]
          unfold nPart afterN
          exact List.takeWhile_append_dropWhile _ _

theorem tryAlt2_spec {s m r : Str} (h : tryAlt2 s = some (m, r)) :
    m ≠ [] ∧ m ++ r = s := by
  unfold tryAlt2 at h
  by_cases hn : nPart s = []
  · simp [hn] at h
  · by_cases ha : afterN s = []
    · rw [if_neg hn, if_pos ha] at h
      injection h with h
      injection h with hm hr
      refine ⟨by rw [← hm]; exact hn, ?_⟩
      rw [← hm, ← hr, List.append_nil]
      have := List.takeWhile_append_dropWhile (fun c => !(isDelim c)) s
      unfold nPart
      unfold afterN at ha
      rw [ha, List.append_nil] at this
      exact this
    · simp [hn, ha] at h

theorem matchAt_spec {s m r : Str} (h : matchAt s = some (m, r)) :
    m ≠ [] ∧ m ++ r = s := by
  unfold matchAt at h
  cases h1 : tryAlt1 s with
  | some x => rw [h1] at h; injection h with h; subst h; exact tryAlt1_spec h1
  | none => rw [h1] at h; exact tryAlt2_spec h

theorem matchAt_rest_lt {s m r : Str} (h : matchAt s = some (m, r)) :
    r.length < s.length := by
  obtain ⟨hm, hmr⟩ := matchAt_spec h
  have : m.length + r.length = s.length := by
    rw [← hmr, List.length_append]
  have hml : 0 < m.length := List.length_pos.mpr hm
  omega

theorem matchAt_nil : matchAt [] = none := by
  simp [matchAt, tryAlt1, tryAlt2, nPart]

theorem scanAux_succ (f : Nat) (s : Str) :
    scanAux (f+1) s =
      match matchAt s with
      | some mr => mr.1 :: scanAux f mr.2
      | none =>
        match s with
        | [] => []
        | _ :: rest => scanAux f rest := rfl

theorem scanAux_fuel : ∀ (f1 f2 : Nat) (s : Str), s.length ≤ f1 → s.length ≤ f2 →
    scanAux f1 s = scanAux f2 s := by
  intro f1
  induction f1 with
  | zero =>
    intro f2 s h1 _
    have : s = [] := List.length_eq_zero.mp (Nat.le_zero.mp h1)
    subst this
    cases f2 with
    | zero => rfl
    | succ f => rw [scanAux_succ, matchAt_nil]; rfl
  | succ f ih =>
    intro f2 s h1 h2
    cases f2 with
    | zero =>
      have : s = [] := List.length_eq_zero.mp (Nat.le_zero.mp h2)
      subst this
      rw [scanAux_succ, matchAt_nil]; rfl
    | succ g =>
      rw [scanAux_succ, scanAux_succ]
      cases hm : matchAt s with
      | some mr =>
        have hlt := matchAt_rest_lt hm
        simp only []
        rw [ih g mr.2 (by omega) (by omega)]
      | none =>
        cases s with
        | nil => rfl
        | cons c rest =>
          simp only [List.length_cons] at h1 h2
          simp only []
          exact ih g rest (by omega) (by omega)

/-- Unfolding equation for `scan` in terms of itself. -/
theorem scan_eq (s : Str) : scan s =
    match matchAt s with
    | some mr => mr.1 :: scan mr.2
    | none =>
      match s with
      | [] => []
      | _ :: rest => scan rest := by
  unfold scan
  cases hl : s.length with
  | zero =>
    have : s = [] := List.length_eq_zero.mp hl
    subst this
    rw [matchAt_nil]; rfl
  | succ n =>
    rw [scanAux_succ]
    cases hm : matchAt s with
    | some mr =>
      have hlt := matchAt_rest_lt hm
      rw [hl] at hlt
      simp only []
      rw [scanAux_fuel n mr.2.length mr.2 (by omega) (le_refl _)]
    | none =>
      cases s with
      | nil => simp at hl
      | cons c rest =>
        simp only [List.length_cons] at hl
        simp only []
        rw [scanAux_fuel n rest.length rest (by omega) (le_refl _)]

theorem scanCoversAux_succ (f : Nat) (s : Str) :
    scanCoversAux (f+1) s =
      match matchAt s with
      | some mr => scanCoversAux f mr.2
      | none => (s = [] : Bool) := rfl

theorem scanCoversAux_fuel : ∀ (f1 f2 : Nat) (s : Str), s.length ≤ f1 → s.length ≤ f2 →
    scanCoversAux f1 s = scanCoversAux f2 s := by
  intro f1
  induction f1 with
  | zero =>
    intro f2 s h1 _
    have : s = [] := List.length_eq_zero.mp (Nat.le_zero.mp h1)
    subst this
    cases f2 with
    | zero => rfl
    | succ f => rw [scanCoversAux_succ, matchAt_nil]; rfl
  | succ f ih =>
    intro f2 s h1 h2
    cases f2 with
    | zero =>
      have : s = [] := List.length_eq_zero.mp (Nat.le_zero.mp h2)
      subst this
      rw [scanCoversAux_succ, matchAt_nil]; rfl
    | succ g =>
      rw [scanCoversAux_succ, scanCoversAux_succ]
      cases hm : matchAt s with
      | some mr =>
        have hlt := matchAt_rest_lt hm
        simp only []
        exact ih g mr.2 (by omega) (by omega)
      | none => rfl

/-- Unfolding equation for `scanCovers` in terms of itself. -/
theorem scanCovers_eq (s : Str) : scanCovers s =
    match matchAt s with
    | some mr => scanCovers mr.2
    | none => (s = [] : Bool) := by
  unfold scanCovers
  cases hl : s.length with
  | zero =>
    have : s = [] := List.length_eq_zero.mp hl
    subst this
    rw [matchAt_nil]; rfl
  | succ n =>
    rw [scanCoversAux_succ]
    cases hm : matchAt s with
    | some mr =>
      have hlt := matchAt_rest_lt hm
      rw [hl] at hlt
      simp only []
      exact scanCoversAux_fuel n mr.2.length mr.2 (by omega) (le_refl _)
    | none => rfl

theorem nonWs_append (a b : Str) : nonWs (a ++ b) = nonWs a ++ nonWs b := by
  unfold nonWs
  exact List.filter_append a b

theorem nonWs_takeWhile_isWs (l : Str) : nonWs (l.takeWhile isWs) = [] := by
  unfold nonWs
  rw [List.filter_eq_nil_iff]
  intro a ha
  have := List.mem_takeWhile_imp ha
  simp [this]

theorem nonWs_dropWhile_isWs (l : Str) : nonWs (l.dropWhile isWs) = nonWs l := by
  conv_rhs => rw [← List.takeWhile_append_dropWhile isWs l]
  rw [nonWs_append, nonWs_takeWhile_isWs, List.nil_append]

theorem nonWs_reverse (l : Str) : nonWs l.reverse = (nonWs l).reverse :=
  List.filter_reverse _ _

theorem nonWs_trim (s : Str) : nonWs (trim s) = nonWs s := by
  unfold trim
  rw [nonWs_reverse, nonWs_dropWhile_isWs, nonWs_reverse, List.reverse_reverse,
    nonWs_dropWhile_isWs]

theorem trim_length_le (s : Str) : (trim s).length ≤ s.length := by
  unfold trim
  rw [List.length_reverse]
  calc ((s.dropWhile isWs).reverse.dropWhile isWs).length
      ≤ (s.dropWhile isWs).reverse.length :=
        (List.dropWhile_suffix isWs).length_le
    _ = (s.dropWhile isWs).length := List.length_reverse _
    _ ≤ s.length := (List.dropWhile_suffix isWs).length_le

theorem trim_nil : trim [] = [] := rfl

theorem lastSpaceLE_le {s : Str} {pos i : Nat}
    (h : lastSpaceLE s pos = some i) : i ≤ pos := by
  unfold lastSpaceLE at h
  cases hf : (s.take (pos+1)).reverse.findIdx? (fun c => c == ' ') with
  | none => rw [hf] at h; exact absurd h (by simp)
  | some j =>
    rw [hf] at h
    injection h with h
    have hlen : (s.take (pos+1)).length ≤ pos + 1 := by
      rw [List.length_take]; omega
    omega

theorem breakIdx_le (rem : Str) : breakIdx rem ≤ MAX_CHAR_LIMIT := by
  unfold breakIdx
  cases h : lastSpaceLE rem MAX_CHAR_LIMIT with
  | none => exact le_refl _
  | some i => exact lastSpaceLE_le h

theorem hardSplit_budget :
    ∀ (fuel : Nat) (ch : List Str) (rem : Str) (ch2 : List Str) (cc2 : Str),
    hardSplit fuel ch rem = some (ch2, cc2) →
    (∀ c ∈ ch, c.length ≤ MAX_CHAR_LIMIT) →
    (∀ c ∈ ch2, c.length ≤ MAX_CHAR_LIMIT) ∧ cc2.length ≤ MAX_CHAR_LIMIT := by
  intro fuel
  induction fuel with
  | zero => intro ch rem ch2 cc2 h; exact absurd h (by simp [hardSplit])
  | succ f ih =>
    intro ch rem ch2 cc2 h hch
    unfold hardSplit at h
    by_cases h0 : rem = []
    · rw [if_pos h0] at h
      injection h with h
      injection h with h1 h2
      subst h1; subst h2
      exact ⟨hch, by simp [MAX_CHAR_LIMIT]⟩
    · rw [if_neg h0] at h
      by_cases hle : rem.length ≤ MAX_CHAR_LIMIT
      · rw [if_pos hle] at h
        injection h with h
        injection h with h1 h2
        subst h1; subst h2
        exact ⟨hch, hle⟩
      · rw [if_neg hle] at h
        refine ih _ _ _ _ h ?_
        intro c hc
        rcases List.mem_append.mp hc with hc | hc
        · exact hch c hc
        · have : c = trim (rem.take (breakIdx rem)) := List.mem_singleton.mp hc
          subst this
          calc (trim (rem.take (breakIdx rem))).length
              ≤ (rem.take (breakIdx rem)).length := trim_length_le _
            _ ≤ breakIdx rem := by rw [List.length_take]; omega
            _ ≤ MAX_CHAR_LIMIT := breakIdx_le rem

theorem chunkLoop_budget :
    ∀ (units : List Str) (fuel : Nat) (ch : List Str) (cc : Str)
    (ch2 : List Str) (cc2 : Str),
    chunkLoop fuel ch cc units = some (ch2, cc2) →
    (∀ c ∈ ch, c.length ≤ MAX_CHAR_LIMIT) → cc.length ≤ MAX_CHAR_LIMIT →
    (∀ c ∈ ch2, c.length ≤ MAX_CHAR_LIMIT) ∧ cc2.length ≤ MAX_CHAR_LIMIT := by
  intro units
  induction units with
  | nil =>
    intro fuel ch cc ch2 cc2 h hch hcc
    unfold chunkLoop at h
    injection h with h
    injection h with h1 h2
    subst h1; subst h2
    exact ⟨hch, hcc⟩
  | cons sentence rest ih =>
    intro fuel ch cc ch2 cc2 h hch hcc
    unfold chunkLoop at h
    by_cases hbig : MAX_CHAR_LIMIT < sentence.length
    · rw [if_pos hbig] at h
      cases hhs : hardSplit fuel
          (if cc = [] then ch else ch ++ [trim cc]) sentence with
      | none => rw [hhs] at h; exact absurd h (by simp)
      | some p =>
        rw [hhs] at h
        have hflush : ∀ c ∈ (if cc = [] then ch else ch ++ [trim cc]),
            c.length ≤ MAX_CHAR_LIMIT := by
          by_cases hcc0 : cc = []
          · rw [if_pos hcc0]; exact hch
          · rw [if_neg hcc0]
            intro c hc
            rcases List.mem_append.mp hc with hc | hc
            · exact hch c hc
            · have : c = trim cc := List.mem_singleton.mp hc
              subst this
              exact le_trans (trim_length_le cc) hcc
        have hinv := hardSplit_budget fuel _ sentence p.1 p.2 (by rw [hhs]) hflush
        exact ih fuel p.1 p.2 ch2 cc2 h hinv.1 hinv.2
    · rw [if_neg hbig] at h
      by_cases hfit : (cc ++ sentence).length ≤ MAX_CHAR_LIMIT
      · rw [if_pos hfit] at h
        exact ih fuel ch (cc ++ sentence) ch2 cc2 h hch hfit
      · rw [if_neg hfit] at h
        refine ih fuel _ sentence ch2 cc2 h ?_ (by omega)
        intro c hc
        rcases List.mem_append.mp hc with hc | hc
        · exact hch c hc
        · have : c = trim cc := List.mem_singleton.mp hc
          subst this
          exact le_trans (trim_length_le cc) hcc

/-- C1: for every input text and fuel on which `chunkText` returns, every
segment in the returned sequence has length at most `MAX_CHAR_LIMIT`
(3000). -/
theorem chunkText_budget (text : Str) (fuel : Nat) (chunks : List Str)
    (h : chunkText fuel text = some chunks) :
    ∀ c ∈ chunks, c.length ≤ MAX_CHAR_LIMIT := by
  unfold chunkText at h
  cases hcl : chunkLoop fuel [] [] (rawSentences text) with
  | none => rw [hcl] at h; exact absurd h (by simp)
  | some p =>
    rw [hcl] at h
    injection h with h
    have hinv := chunkLoop_budget (rawSentences text) fuel [] [] p.1 p.2
      (by rw [hcl]) (by intro c hc; exact absurd hc (List.not_mem_nil c))
      (by simp [MAX_CHAR_LIMIT])
    intro c hc
    rw [← h] at hc
    by_cases ht : trim p.2 = []
    · rw [if_pos ht] at hc
      exact hinv.1 c hc
    · rw [if_neg ht] at hc
      rcases List.mem_append.mp hc with hc | hc
      · exact hinv.1 c hc
      · have : c = trim p.2 := List.mem_singleton.mp hc
        subst this
        exact le_trans (trim_length_le p.2) hinv.2

/-- Witness for `chunkText_budget` at the concrete input `"hi"`. -/
theorem chunkText_budget_witness :
    chunkText 10 ['h', 'i'] = some [['h', 'i']] ∧
    (['h', 'i'] : Str).length ≤ MAX_CHAR_LIMIT :=
  ⟨by decide, chunkText_budget ['h', 'i'] 10 [['h', 'i']] (by decide)
    ['h', 'i'] (by simp)⟩

theorem nonWs_nil : nonWs [] = [] := rfl

theorem nonWs_take_drop (b : Nat) (rem : Str) :
    nonWs (rem.take b) ++ nonWs (rem.drop b) = nonWs rem := by
  rw [← nonWs_append, List.take_append_drop]

theorem hardSplit_nonWs :
    ∀ (fuel : Nat) (ch : List Str) (rem : Str) (ch2 : List Str) (cc2 : Str),
    hardSplit fuel ch rem = some (ch2, cc2) →
    nonWs (ch2.flatten ++ cc2) = nonWs (ch.flatten ++ rem) := by
  intro fuel
  induction fuel with
  | zero => intro ch rem ch2 cc2 h; exact absurd h (by simp [hardSplit])
  | succ f ih =>
    intro ch rem ch2 cc2 h
    unfold hardSplit at h
    by_cases h0 : rem = []
    · rw [if_pos h0] at h
      injection h with h
      injection h with h1 h2
      subst h1; subst h2; subst h0
      rfl
    · rw [if_neg h0] at h
      by_cases hle : rem.length ≤ MAX_CHAR_LIMIT
      · rw [if_pos hle] at h
        injection h with h
        injection h with h1 h2
        subst h1; subst h2
        rfl
      · rw [if_neg hle] at h
        rw [ih _ _ _ _ h]
        rw [List.flatten_append, List.flatten_cons, List.flatten_nil,
          List.append_nil, nonWs_append, nonWs_append, nonWs_append,
          nonWs_trim, List.append_assoc, nonWs_take_drop]

theorem chunkLoop_nonWs :
    ∀ (units : List Str) (fuel : Nat) (ch : List Str) (cc : Str)
    (ch2 : List Str) (cc2 : Str),
    chunkLoop fuel ch cc units = some (ch2, cc2) →
    nonWs (ch2.flatten ++ cc2) = nonWs (ch.flatten ++ (cc ++ units.flatten)) := by
  intro units
  induction units with
  | nil =>
    intro fuel ch cc ch2 cc2 h
    unfold chunkLoop at h
    injection h with h
    injection h with h1 h2
    subst h1; subst h2
    rw [List.flatten_nil, List.append_nil]
  | cons sentence rest ih =>
    intro fuel ch cc ch2 cc2 h
    unfold chunkLoop at h
    by_cases hbig : MAX_CHAR_LIMIT < sentence.length
    · rw [if_pos hbig] at h
      cases hhs : hardSplit fuel
          (if cc = [] then ch else ch ++ [trim cc]) sentence with
      | none => rw [hhs] at h; exact absurd h (by simp)
      | some p =>
        rw [hhs] at h
        have hh := hardSplit_nonWs fuel _ sentence p.1 p.2 (by rw [hhs])
        have hrec := ih fuel p.1 p.2 ch2 cc2 h
        rw [hrec]
        rw [nonWs_append, nonWs_append] at hh ⊢
        rw [← List.append_assoc, nonWs_append, hh]
        by_cases hcc0 : cc = []
        · subst hcc0
          simp [nonWs_nil, List.append_assoc, ← nonWs_append]
        · rw [if_neg hcc0]
          simp [List.flatten_append, List.flatten_cons, List.flatten_nil,
            nonWs_append, nonWs_trim, nonWs_nil, List.append_assoc]
    · rw [if_neg hbig] at h
      by_cases hfit : (cc ++ sentence).length ≤ MAX_CHAR_LIMIT
      · rw [if_pos hfit] at h
        rw [ih fuel ch (cc ++ sentence) ch2 cc2 h]
        rw [List.flatten_cons, List.append_assoc]
      · rw [if_neg hfit] at h
        rw [ih fuel (ch ++ [trim cc]) sentence ch2 cc2 h]
        rw [List.flatten_append, List.flatten_cons, List.flatten_nil,
          List.append_nil, nonWs_append, nonWs_append, nonWs_append,
          nonWs_append, nonWs_trim, List.flatten_cons, nonWs_append,
          nonWs_append, List.append_assoc]

theorem scan_nil : scan [] = [] := rfl

theorem scan_flatten_covers_aux :
    ∀ (n : Nat) (s : Str), s.length ≤ n → scanCovers s = true →
    (scan s).flatten = s := by
  intro n
  induction n with
  | zero =>
    intro s hl _
    have : s = [] := List.length_eq_zero.mp (Nat.le_zero.mp hl)
    subst this
    rfl
  | succ n ih =>
    intro s hl hcov
    rw [scanCovers_eq] at hcov
    rw [scan_eq]
    cases hm : matchAt s with
    | some mr =>
      rw [hm] at hcov
      simp only [] at hcov
      have hlt := matchAt_rest_lt hm
      obtain ⟨_, hmr⟩ := matchAt_spec hm
      simp only [List.flatten_cons]
      rw [ih mr.2 (by omega) hcov]
      cases mr with
      | mk a b => exact hmr
    | none =>
      rw [hm] at hcov
      simp only [] at hcov
      have : s = [] := by
        simpa using hcov
      subst this
      rfl

/-- Under `scanCovers`, the matched units concatenate back to the input. -/
theorem scan_flatten_covers {s : Str} (hcov : scanCovers s = true) :
    (scan s).flatten = s :=
  scan_flatten_covers_aux s.length s (le_refl _) hcov

theorem scan_flatten_length_aux :
    ∀ (n : Nat) (s : Str), s.length ≤ n →
    (scan s).flatten.length ≤ s.length := by
  intro n
  induction n with
  | zero =>
    intro s hl
    have : s = [] := List.length_eq_zero.mp (Nat.le_zero.mp hl)
    subst this
    simp [scan_nil]
  | succ n ih =>
    intro s hl
    rw [scan_eq]
    cases hm : matchAt s with
    | some mr =>
      have hlt := matchAt_rest_lt hm
      obtain ⟨_, hmr⟩ := matchAt_spec hm
      simp only [List.flatten_cons, List.length_append]
      have h2 := ih mr.2 (by omega)
      have : mr.1.length + mr.2.length = s.length := by
        rw [← hmr, List.length_append]
      omega
    | none =>
      cases s with
      | nil => simp
      | cons c rest =>
        simp only []
        have := ih rest (by simp at hl; omega)
        simp only [List.length_cons]
        omega

/-- The matched units never contain more characters than the input. -/
theorem scan_flatten_length (s : Str) : (scan s).flatten.length ≤ s.length :=
  scan_flatten_length_aux s.length s (le_refl _)

theorem rawSentences_flatten_covers {text : Str} (hcov : scanCovers text = true) :
    (rawSentences text).flatten = text := by
  unfold rawSentences
  by_cases hs : scan text = []
  · rw [if_pos hs]
    simp
  · rw [if_neg hs]
    exact scan_flatten_covers hcov

theorem rawSentences_flatten_length (text : Str) :
    (rawSentences text).flatten.length ≤ text.length := by
  unfold rawSentences
  by_cases hs : scan text = []
  · rw [if_pos hs]; simp
  · rw [if_neg hs]; exact scan_flatten_length text

/-- C2 counterexample: on the input `"a.b"` the splitting step drops the
prefix `"a."` (the regex can match neither at the `'a'`, because no
whitespace or end follows the delimiter, nor at the `'.'`), so the single
returned segment is `"b"` and the non-whitespace character `'a'` of the
input is lost. -/
theorem chunkText_drops_chars :
    chunkText 10 ['a', '.', 'b'] = some [['b']] ∧
    rawSentences ['a', '.', 'b'] = [['b']] ∧
    nonWs (List.flatten [['b']]) ≠ nonWs ['a', '.', 'b'] := by
  refine ⟨by decide, by decide, by decide⟩

/-- C2 amended: when the successive matches of the splitting regex are
contiguous and exhaust the input (`scanCovers`), the raw candidate units
concatenate back to the input exactly, and the returned segments preserve
every non-whitespace character of the input in order (equality after
filtering out whitespace). -/
theorem chunkText_nonWs_preserved (text : Str) (fuel : Nat) (chunks : List Str)
    (hcov : scanCovers text = true) (h : chunkText fuel text = some chunks) :
    nonWs chunks.flatten = nonWs text ∧ (rawSentences text).flatten = text := by
  refine ⟨?_, rawSentences_flatten_covers hcov⟩
  unfold chunkText at h
  cases hcl : chunkLoop fuel [] [] (rawSentences text) with
  | none => rw [hcl] at h; exact absurd h (by simp)
  | some p =>
    rw [hcl] at h
    injection h with h
    have hloop := chunkLoop_nonWs (rawSentences text) fuel [] [] p.1 p.2
      (by rw [hcl])
    rw [List.flatten_nil, List.nil_append, List.nil_append,
      rawSentences_flatten_covers hcov] at hloop
    rw [← h]
    by_cases ht : trim p.2 = []
    · rw [if_pos ht]
      have : nonWs p.2 = [] := by
        rw [← nonWs_trim, ht]
        rfl
      rw [nonWs_append, this, List.append_nil] at hloop
      exact hloop
    · rw [if_neg ht]
      rw [List.flatten_append, List.flatten_cons, List.flatten_nil,
        List.append_nil, nonWs_append, nonWs_trim, ← nonWs_append]
      exact hloop

/-- Witness for `chunkText_nonWs_preserved` at the covered input
`"Hi. Yo"`. -/
theorem chunkText_nonWs_preserved_witness :
    scanCovers ['H', 'i', '.', ' ', 'Y', 'o'] = true ∧
    chunkText 10 ['H', 'i', '.', ' ', 'Y', 'o'] =
      some [['H', 'i', '.', ' ', 'Y', 'o']] ∧
    nonWs (List.flatten [['H', 'i', '.', ' ', 'Y', 'o']]) =
      nonWs ['H', 'i', '.', ' ', 'Y', 'o'] ∧
    (rawSentences ['H', 'i', '.', ' ', 'Y', 'o']).flatten =
      ['H', 'i', '.', ' ', 'Y', 'o'] :=
  ⟨by decide, by decide,
    (chunkText_nonWs_preserved ['H', 'i', '.', ' ', 'Y', 'o'] 10
      [['H', 'i', '.', ' ', 'Y', 'o']] (by decide) (by decide)).1,
    (chunkText_nonWs_preserved ['H', 'i', '.', ' ', 'Y', 'o'] 10
      [['H', 'i', '.', ' ', 'Y', 'o']] (by decide) (by decide)).2⟩

theorem chunkLoop_fits :
    ∀ (units : List Str) (fuel : Nat) (ch : List Str) (cc : Str),
    cc.length + units.flatten.length ≤ MAX_CHAR_LIMIT →
    chunkLoop fuel ch cc units = some (ch, cc ++ units.flatten) := by
  intro units
  induction units with
  | nil =>
    intro fuel ch cc _
    unfold chunkLoop
    rw [List.flatten_nil, List.append_nil]
  | cons sentence rest ih =>
    intro fuel ch cc hle
    rw [List.flatten_cons, List.length_append] at hle
    unfold chunkLoop
    have hbig : ¬ MAX_CHAR_LIMIT < sentence.length := by omega
    rw [if_neg hbig]
    have hfit : (cc ++ sentence).length ≤ MAX_CHAR_LIMIT := by
      rw [List.length_append]; omega
    rw [if_pos hfit]
    rw [ih fuel ch (cc ++ sentence) (by rw [List.length_append]; omega)]
    rw [List.flatten_cons, List.append_assoc]

/-- C8 counterexample: the empty input yields zero segments (the final
`if (currentChunk.trim())` check drops the empty buffer, so emptiness is in
fact special-cased away), and on `"a.b"`, whose length is well below the
budget, the single returned segment `"b"` differs from the trimmed input
`"a.b"`. -/
theorem chunkText_small_cex :
    chunkText 10 [] = some [] ∧
    trim [] = [] ∧
    chunkText 10 ['a', '.', 'b'] = some [['b']] ∧
    trim ['a', '.', 'b'] = ['a', '.', 'b'] ∧
    (['b'] : Str) ≠ ['a', '.', 'b'] :=
  ⟨by decide, by decide, by decide, by decide, by decide⟩

/-- C8 amended: for every input of length at most `MAX_CHAR_LIMIT`, the
segmenter returns at most one segment, namely the trimmed concatenation of
the raw split units when that trim is nonempty, and no segment at all when
it is empty (in particular the empty input yields zero segments). The
single segment equals the trimmed input exactly when the raw units cover
the input. -/
theorem chunkText_small (text : Str) (fuel : Nat)
    (hlen : text.length ≤ MAX_CHAR_LIMIT) :
    chunkText fuel text =
      some (if trim (rawSentences text).flatten = [] then []
            else [trim (rawSentences text).flatten]) := by
  unfold chunkText
  have hfl : (rawSentences text).flatten.length ≤ MAX_CHAR_LIMIT :=
    le_trans (rawSentences_flatten_length text) hlen
  rw [chunkLoop_fits (rawSentences text) fuel [] [] (by simpa using hfl)]
  rfl

/-- Witness for `chunkText_small` at the concrete input `"hi"`. -/
theorem chunkText_small_witness :
    (['h', 'i'] : Str).length ≤ MAX_CHAR_LIMIT ∧
    chunkText 10 ['h', 'i'] =
      some (if trim (rawSentences ['h', 'i']).flatten = [] then []
            else [trim (rawSentences ['h', 'i']).flatten]) :=
  ⟨by decide, chunkText_small ['h', 'i'] 10 (by decide)⟩

theorem matchAt_noDelim {s : Str} (hne : s ≠ [])
    (h : ∀ c ∈ s, isDelim c = false) : matchAt s = some (s, []) := by
  have hn : nPart s = s := by
    unfold nPart
    rw [List.takeWhile_eq_self_iff]
    intro c hc
    simp [h c hc]
  have ha : afterN s = [] := by
    unfold afterN
    rw [List.dropWhile_eq_nil_iff]
    intro c hc
    simp [h c hc]
  have hd : dPart s = [] := by
    unfold dPart
    rw [ha]
    rfl
  unfold matchAt tryAlt1 tryAlt2
  rw [hn, hd, if_neg hne, if_pos rfl, if_neg hne, if_pos ha]

theorem scan_noDelim {s : Str} (hne : s ≠ [])
    (h : ∀ c ∈ s, isDelim c = false) : scan s = [s] := by
  rw [scan_eq, matchAt_noDelim hne h]
  rfl

theorem rawSentences_noDelim {s : Str} (hne : s ≠ [])
    (h : ∀ c ∈ s, isDelim c = false) : rawSentences s = [s] := by
  unfold rawSentences
  rw [scan_noDelim hne h]
  rw [if_neg (by simp [hne])]

theorem noDelim_replicate_a (n : Nat) :
    ∀ c ∈ List.replicate n 'a', isDelim c = false := by
  intro c hc
  have := List.eq_of_mem_replicate hc
  subst this
  decide

theorem noDelim_stuckInput : ∀ c ∈ stuckInput, isDelim c = false := by
  intro c hc
  unfold stuckInput at hc
  rcases List.mem_cons.mp hc with hc | hc
  · subst hc; decide
  · exact noDelim_replicate_a 3001 c hc

theorem stuckInput_length : stuckInput.length = 3002 := by
  unfold stuckInput
  rw [List.length_cons, List.length_replicate]

theorem rawSentences_stuckInput : rawSentences stuckInput = [stuckInput] := by
  refine rawSentences_noDelim ?_ noDelim_stuckInput
  unfold stuckInput
  exact List.cons_ne_nil _ _

theorem findIdx_space_replicate_a (n : Nat) :
    (List.replicate n 'a').findIdx? (fun c => c == ' ') = none := by
  rw [List.findIdx?_eq_none_iff]
  intro c hc
  have := List.eq_of_mem_replicate hc
  subst this
  decide

theorem breakIdx_stuckInput : breakIdx stuckInput = 0 := by
  unfold breakIdx lastSpaceLE stuckInput
  rw [List.take_cons (by omega), List.take_replicate]
  have hmin : min (MAX_CHAR_LIMIT + 1 - 1) 3001 = 3000 := by
    unfold MAX_CHAR_LIMIT; omega
  rw [hmin]
  rw [List.reverse_cons, List.reverse_replicate]
  rw [List.findIdx?_append, findIdx_space_replicate_a 3000]
  have hone : (([' '] : Str).findIdx? (fun c => c == ' ')) = some 0 := rfl
  rw [hone, List.length_replicate, List.length_cons, List.length_replicate]
  decide

theorem breakIdx_replicate_a {n : Nat} (h : MAX_CHAR_LIMIT + 1 ≤ n) :
    breakIdx (List.replicate n 'a') = MAX_CHAR_LIMIT := by
  unfold breakIdx lastSpaceLE
  rw [List.take_replicate]
  have hmin : min (MAX_CHAR_LIMIT + 1) n = MAX_CHAR_LIMIT + 1 := by omega
  rw [hmin, List.reverse_replicate, findIdx_space_replicate_a]

theorem hardSplit_stuck_none :
    ∀ (fuel : Nat) (ch : List Str), hardSplit fuel ch stuckInput = none := by
  intro fuel
  induction fuel with
  | zero => intro ch; rfl
  | succ f ih =>
    intro ch
    unfold hardSplit
    rw [if_neg (by unfold stuckInput; exact List.cons_ne_nil _ _)]
    rw [if_neg (by rw [stuckInput_length]; unfold MAX_CHAR_LIMIT; omega)]
    rw [breakIdx_stuckInput, List.take_zero, List.drop_zero]
    exact ih (ch ++ [trim []])

/-- C3: the hard-split loop of `chunkText` does not terminate on every
input. On a space followed by 3001 copies of `'a'` the oversized unit has
its only space (at position at most 3000) at index 0, so `breakIndex` is 0,
the pushed piece `remaining.substring(0, 0).trim()` is empty, and
`remaining.substring(0)` is `remaining` itself: the loop repeats the same
state forever, and no amount of fuel makes `chunkText` return. -/
theorem chunkText_stuck : ∀ fuel : Nat, chunkText fuel stuckInput = none := by
  intro fuel
  unfold chunkText
  rw [rawSentences_stuckInput]
  unfold chunkLoop
  rw [if_pos (by rw [stuckInput_length]; unfold MAX_CHAR_LIMIT; omega)]
  rw [if_pos rfl]
  rw [hardSplit_stuck_none fuel []]

theorem trim_replicate_a (n : Nat) :
    trim (List.replicate n 'a') = List.replicate n 'a' := by
  unfold trim
  rw [List.dropWhile_replicate]
  rw [if_neg (by decide)]
  rw [List.reverse_replicate, List.dropWhile_replicate]
  rw [if_neg (by decide)]
  rw [List.reverse_replicate]

/-- C4: on a single run of 5000 non-whitespace characters the segmenter
hard-splits at the budget boundary: exactly two segments, the first of
exactly 3000 characters and the second of the remaining 2000. -/
theorem chunkText_hardSplit_5000 :
    chunkText 10 (List.replicate 5000 'a') =
      some [List.replicate 3000 'a', List.replicate 2000 'a'] := by
  unfold chunkText
  rw [rawSentences_noDelim
    (by simp only [ne_eq, List.replicate_eq_nil_iff]; omega)
    (noDelim_replicate_a 5000)]
  unfold chunkLoop
  rw [if_pos (by rw [List.length_replicate]; unfold MAX_CHAR_LIMIT; omega)]
  rw [if_pos (rfl : ([] : Str) = [])]
  have h1 : hardSplit 10 [] (List.replicate 5000 'a') =
      some ([List.replicate 3000 'a'], List.replicate 2000 'a') := by
    unfold hardSplit
    rw [if_neg (by simp only [List.replicate_eq_nil_iff]; omega)]
    rw [if_neg (by rw [List.length_replicate]; unfold MAX_CHAR_LIMIT; omega)]
    rw [breakIdx_replicate_a (by unfold MAX_CHAR_LIMIT; omega)]
    rw [List.take_replicate, List.drop_replicate]
    have hmin : min MAX_CHAR_LIMIT 5000 = 3000 := by
      unfold MAX_CHAR_LIMIT; omega
    have hsub : 5000 - MAX_CHAR_LIMIT = 2000 := by
      unfold MAX_CHAR_LIMIT; omega
    rw [hmin, hsub, trim_replicate_a]
    unfold hardSplit
    rw [if_neg (by simp only [List.replicate_eq_nil_iff]; omega)]
    rw [if_pos (by rw [List.length_replicate]; unfold MAX_CHAR_LIMIT; omega)]
    rfl
  rw [h1]
  simp only []
  unfold chunkLoop
  simp only []
  rw [trim_replicate_a]
  rw [if_neg (by simp only [List.replicate_eq_nil_iff]; omega)]
  rfl

theorem processChunks_cons (synth : Str → SynthResponse) (c : Str)
    (rest : List Str) :
    processChunks synth (c :: rest) =
      if trim c = [] then processChunks synth rest
      else
        match synth c with
        | .failure => ⟨[c], [], true⟩
        | .success dat => pushPayload c dat (processChunks synth rest) := rfl

theorem processChunks_ws {synth : Str → SynthResponse} {c : Str}
    {rest : List Str} (h : trim c = []) :
    processChunks synth (c :: rest) = processChunks synth rest := by
  rw [processChunks_cons, if_pos h]

theorem processChunks_fail_eq {synth : Str → SynthResponse} {c : Str}
    {rest : List Str} (h : trim c ≠ []) (hs : synth c = SynthResponse.failure) :
    processChunks synth (c :: rest) = ⟨[c], [], true⟩ := by
  rw [processChunks_cons, if_neg h, hs]

theorem processChunks_success {synth : Str → SynthResponse} {c : Str}
    {rest : List Str} {dat : Option (List Nat)} (h : trim c ≠ [])
    (hs : synth c = SynthResponse.success dat) :
    processChunks synth (c :: rest) =
      pushPayload c dat (processChunks synth rest) := by
  rw [processChunks_cons, if_neg h, hs]

theorem pushPayload_calls (c : Str) (dat : Option (List Nat)) (out : LoopOut) :
    (pushPayload c dat out).calls = c :: out.calls := by
  cases dat with
  | none => rfl
  | some bs =>
    by_cases hbs : bs = []
    · simp [pushPayload, hbs]
    · simp [pushPayload, hbs]

theorem pushPayload_aborted (c : Str) (dat : Option (List Nat)) (out : LoopOut) :
    (pushPayload c dat out).aborted = out.aborted := by
  cases dat with
  | none => rfl
  | some bs =>
    by_cases hbs : bs = []
    · simp [pushPayload, hbs]
    · simp [pushPayload, hbs]

theorem pushPayload_payloads_len (c : Str) (dat : Option (List Nat))
    (out : LoopOut) :
    (pushPayload c dat out).payloads.length ≤ out.payloads.length + 1 := by
  cases dat with
  | none => exact Nat.le_succ _
  | some bs =>
    by_cases hbs : bs = []
    · simp [pushPayload, hbs]
    · simp [pushPayload, hbs]

theorem processChunks_fail_last :
    ∀ (chunks : List Str) (synth : Str → SynthResponse) (i : Nat) (x : Str),
    (processChunks synth chunks).calls[i]? = some x →
    synth x = SynthResponse.failure →
    (processChunks synth chunks).calls.length = i + 1 ∧
    (processChunks synth chunks).aborted = true := by
  intro chunks
  induction chunks with
  | nil =>
    intro synth i x hget _
    exact absurd hget (by simp [processChunks])
  | cons c rest ih =>
    intro synth i x hget hfail
    by_cases ht : trim c = []
    · rw [processChunks_ws ht] at hget ⊢
      exact ih synth i x hget hfail
    · cases hs : synth c with
      | failure =>
        rw [processChunks_fail_eq ht hs] at hget ⊢
        cases i with
        | zero => exact ⟨rfl, rfl⟩
        | succ j => exact absurd hget (by simp)
      | success dat =>
        rw [processChunks_success ht hs] at hget ⊢
        rw [pushPayload_calls] at hget ⊢
        rw [pushPayload_aborted]
        cases i with
        | zero =>
          rw [List.getElem?_cons_zero] at hget
          injection hget with hget
          subst hget
          rw [hfail] at hs
          exact absurd hs (by simp)
        | succ j =>
          rw [List.getElem?_cons_succ] at hget
          have := ih synth j x hget hfail
          rw [List.length_cons]
          exact ⟨by omega, this.2⟩

theorem setAt_length {buf : List Nat} {off : Nat} {c : List Nat}
    (h : off + c.length ≤ buf.length) :
    (setAt buf off c).length = buf.length := by
  unfold setAt
  rw [List.length_append, List.length_append, List.length_take,
    List.length_drop]
  have hmin : min off buf.length = off := Nat.min_eq_left (by omega)
  omega

theorem writeLoop_join :
    ∀ (cs : List (List Nat)) (buf : List Nat) (off : Nat),
    buf.length = off + (cs.map List.length).sum →
    writeLoop cs buf off = buf.take off ++ cs.flatten := by
  intro cs
  induction cs with
  | nil =>
    intro buf off h
    unfold writeLoop
    rw [List.flatten_nil, List.append_nil]
    simp only [List.map_nil, List.sum_nil, Nat.add_zero] at h
    rw [← h, List.take_length]
  | cons c cs ih =>
    intro buf off h
    simp only [List.map_cons, List.sum_cons] at h
    unfold writeLoop
    have hle : off + c.length ≤ buf.length := by omega
    have hlen : (setAt buf off c).length = buf.length := setAt_length hle
    rw [ih (setAt buf off c) (off + c.length) (by rw [hlen]; omega)]
    rw [List.flatten_cons]
    have htake : (setAt buf off c).take (off + c.length) = buf.take off ++ c := by
      unfold setAt
      refine List.take_left' ?_
      rw [List.length_append, List.length_take]
      have hmin : min off buf.length = off := Nat.min_eq_left (by omega)
      omega
    rw [htake, List.append_assoc]

theorem flatten_extract :
    ∀ (ps : List (List Nat)) (i : Nat) (p : List Nat),
    ps[i]? = some p →
    ((ps.flatten).drop (offsetBefore ps i)).take p.length = p := by
  intro ps
  induction ps with
  | nil => intro i p hget; exact absurd hget (by simp)
  | cons q ps ih =>
    intro i p hget
    cases i with
    | zero =>
      rw [List.getElem?_cons_zero] at hget
      injection hget with hget
      rw [← hget, List.flatten_cons]
      have hoff : offsetBefore (q :: ps) 0 = 0 := rfl
      rw [hoff, List.drop_zero, List.take_left]
    | succ j =>
      rw [List.getElem?_cons_succ] at hget
      rw [List.flatten_cons]
      have hoff : offsetBefore (q :: ps) (j+1) =
          q.length + offsetBefore ps j := by
        unfold offsetBefore
        rw [List.take_succ_cons, List.map_cons, List.sum_cons]
      rw [hoff]
      have hdrop : (q ++ ps.flatten).drop (q.length + offsetBefore ps j) =
          ps.flatten.drop (offsetBefore ps j) := by
        rw [← List.drop_drop, List.drop_left]
      rw [hdrop]
      exact ih j p hget

theorem generateSpeech_spec (synth : Str → SynthResponse) (fuel : Nat)
    (text : Str) (r : SpeechRun)
    (hr : generateSpeech synth fuel text = some r) :
    ∃ chunks, chunkText fuel text = some chunks ∧
      r.calls = (processChunks synth chunks).calls ∧
      r.payloads = (processChunks synth chunks).payloads ∧
      r.result =
        (if (processChunks synth chunks).aborted = true then
          (Except.error () : Except Unit (List Nat))
         else if ((processChunks synth chunks).payloads.map List.length).sum = 0
         then Except.error ()
         else Except.ok (writeLoop (processChunks synth chunks).payloads
           (List.replicate
             (((processChunks synth chunks).payloads.map List.length).sum) 0)
           0)) := by
  unfold generateSpeech at hr
  cases hct : chunkText fuel text with
  | none => rw [hct] at hr; exact absurd hr (by simp)
  | some chunks =>
    rw [hct] at hr
    simp only [] at hr
    refine ⟨chunks, rfl, ?_⟩
    by_cases hab : (processChunks synth chunks).aborted = true
    · rw [if_pos hab] at hr
      injection hr with hr
      subst hr
      exact ⟨rfl, rfl, by rw [if_pos hab]⟩
    · rw [if_neg hab] at hr
      by_cases hz :
          ((processChunks synth chunks).payloads.map List.length).sum = 0
      · rw [if_pos hz] at hr
        injection hr with hr
        subst hr
        exact ⟨rfl, rfl, by rw [if_neg hab, if_pos hz]⟩
      · rw [if_neg hz] at hr
        injection hr with hr
        subst hr
        exact ⟨rfl, rfl, by rw [if_neg hab, if_neg hz]⟩

/-- C6: if the `i`-th synthesis call of a `generateSpeech` run is for a
segment on which the external capability throws, then that call is the
last one of the run (no later segment is synthesized, the failed one is
not retried) and the caller sees an error: no audio buffer, in particular
no partial audio from the earlier segments, is returned. -/
theorem generateSpeech_failure_aborts (synth : Str → SynthResponse)
    (fuel : Nat) (text : Str) (r : SpeechRun) (i : Nat) (seg : Str)
    (hr : generateSpeech synth fuel text = some r)
    (hget : r.calls[i]? = some seg)
    (hfail : synth seg = SynthResponse.failure) :
    r.calls.length = i + 1 ∧ r.result = Except.error () := by
  obtain ⟨chunks, _, hcalls, _, hres⟩ :=
    generateSpeech_spec synth fuel text r hr
  rw [hcalls] at hget ⊢
  have hlast := processChunks_fail_last chunks synth i seg hget hfail
  refine ⟨hlast.1, ?_⟩
  rw [hres, if_pos hlast.2]

/-- Witness for `generateSpeech_failure_aborts`: a single-segment text
whose only synthesis call throws. -/
theorem generateSpeech_failure_aborts_witness :
    generateSpeech synthFail 10 ['h', 'i'] =
      some ⟨[['h', 'i']], [], Except.error ()⟩ ∧
    ([['h', 'i']] : List Str).length = 0 + 1 ∧
    (Except.error () : Except Unit (List Nat)) = Except.error () :=
  ⟨rfl, (generateSpeech_failure_aborts synthFail 10 ['h', 'i']
      ⟨[['h', 'i']], [], Except.error ()⟩ 0 ['h', 'i'] rfl rfl rfl).1,
    (generateSpeech_failure_aborts synthFail 10 ['h', 'i']
      ⟨[['h', 'i']], [], Except.error ()⟩ 0 ['h', 'i'] rfl rfl rfl).2⟩

/-- C7: a `generateSpeech` run never returns a zero-length audio buffer:
if the accumulated total byte length over all payloads is zero the run
fails with the generic synthesis error, and whenever it does return a
buffer, that buffer is nonempty. -/
theorem generateSpeech_no_zero_audio (synth : Str → SynthResponse)
    (fuel : Nat) (text : Str) (r : SpeechRun)
    (hr : generateSpeech synth fuel text = some r) :
    (((r.payloads.map List.length).sum = 0) → r.result = Except.error ()) ∧
    (∀ buf : List Nat, r.result = Except.ok buf → 0 < buf.length) := by
  obtain ⟨chunks, _, _, hpay, hres⟩ :=
    generateSpeech_spec synth fuel text r hr
  constructor
  · intro hz
    rw [hpay] at hz
    rw [hres]
    by_cases hab : (processChunks synth chunks).aborted = true
    · rw [if_pos hab]
    · rw [if_neg hab, if_pos hz]
  · intro buf hb
    rw [hres] at hb
    by_cases hab : (processChunks synth chunks).aborted = true
    · rw [if_pos hab] at hb
      exact absurd hb (by simp)
    · rw [if_neg hab] at hb
      by_cases hz :
          ((processChunks synth chunks).payloads.map List.length).sum = 0
      · rw [if_pos hz] at hb
        exact absurd hb (by simp)
      · rw [if_neg hz] at hb
        injection hb with hb
        have hwj := writeLoop_join (processChunks synth chunks).payloads
          (List.replicate
            (((processChunks synth chunks).payloads.map List.length).sum) 0) 0
          (by rw [List.length_replicate]; omega)
        rw [hwj, List.take_zero, List.nil_append] at hb
        rw [← hb, List.length_flatten]
        omega

/-- Witness for `generateSpeech_no_zero_audio` at a run returning a
3-byte buffer. -/
theorem generateSpeech_no_zero_audio_witness :
    generateSpeech synthConst 10 ['h', 'i'] =
      some ⟨[['h', 'i']], [[5, 6, 7]], Except.ok [5, 6, 7]⟩ ∧
    0 < ([5, 6, 7] : List Nat).length :=
  ⟨rfl, (generateSpeech_no_zero_audio synthConst 10 ['h', 'i']
      ⟨[['h', 'i']], [[5, 6, 7]], Except.ok [5, 6, 7]⟩ rfl).2 [5, 6, 7] rfl⟩

/-- C5: whenever `generateSpeech` returns a buffer, that buffer is the
byte-for-byte concatenation of the collected payloads in call order: its
length is the sum of the payload lengths, and the byte range starting at
the running offset of payload `i` is exactly payload `i`, with no gaps,
markers or padding. -/
theorem generateSpeech_concat (synth : Str → SynthResponse) (fuel : Nat)
    (text : Str) (r : SpeechRun) (buf : List Nat)
    (hr : generateSpeech synth fuel text = some r)
    (hb : r.result = Except.ok buf) :
    buf.length = (r.payloads.map List.length).sum ∧
    (∀ (i : Nat) (p : List Nat), r.payloads[i]? = some p →
      (buf.drop (offsetBefore r.payloads i)).take p.length = p) := by
  obtain ⟨chunks, _, _, hpay, hres⟩ :=
    generateSpeech_spec synth fuel text r hr
  rw [hres] at hb
  by_cases hab : (processChunks synth chunks).aborted = true
  · rw [if_pos hab] at hb
    exact absurd hb (by simp)
  · rw [if_neg hab] at hb
    by_cases hz :
        ((processChunks synth chunks).payloads.map List.length).sum = 0
    · rw [if_pos hz] at hb
      exact absurd hb (by simp)
    · rw [if_neg hz] at hb
      injection hb with hb
      have hwj := writeLoop_join (processChunks synth chunks).payloads
        (List.replicate
          (((processChunks synth chunks).payloads.map List.length).sum) 0) 0
        (by rw [List.length_replicate]; omega)
      rw [hwj, List.take_zero, List.nil_append] at hb
      rw [← hb, hpay]
      exact ⟨List.length_flatten _, fun i p hget => flatten_extract _ i p hget⟩

/-- Witness for `generateSpeech_concat` at a run with one payload. -/
theorem generateSpeech_concat_witness :
    generateSpeech synthConst 10 ['h', 'i'] =
      some ⟨[['h', 'i']], [[5, 6, 7]], Except.ok [5, 6, 7]⟩ ∧
    ([5, 6, 7] : List Nat).length =
      (([[5, 6, 7]] : List (List Nat)).map List.length).sum ∧
    (([5, 6, 7] : List Nat).drop (offsetBefore [[5, 6, 7]] 0)).take
      ([5, 6, 7] : List Nat).length = [5, 6, 7] :=
  ⟨rfl,
    (generateSpeech_concat synthConst 10 ['h', 'i']
      ⟨[['h', 'i']], [[5, 6, 7]], Except.ok [5, 6, 7]⟩ [5, 6, 7] rfl rfl).1,
    (generateSpeech_concat synthConst 10 ['h', 'i']
      ⟨[['h', 'i']], [[5, 6, 7]], Except.ok [5, 6, 7]⟩ [5, 6, 7] rfl rfl).2
      0 [5, 6, 7] rfl⟩

theorem processChunks_calls_trim :
    ∀ (chunks : List Str) (synth : Str → SynthResponse),
    (∀ c ∈ (processChunks synth chunks).calls, trim c ≠ []) ∧
    (processChunks synth chunks).payloads.length ≤
      (processChunks synth chunks).calls.length := by
  intro chunks
  induction chunks with
  | nil =>
    intro synth
    exact ⟨by intro c hc; exact absurd hc (by simp [processChunks]),
      by simp [processChunks]⟩
  | cons c rest ih =>
    intro synth
    by_cases ht : trim c = []
    · rw [processChunks_ws ht]
      exact ih synth
    · cases hs : synth c with
      | failure =>
        rw [processChunks_fail_eq ht hs]
        refine ⟨?_, by simp⟩
        intro x hx
        have : x = c := List.mem_singleton.mp hx
        subst this
        exact ht
      | success dat =>
        rw [processChunks_success ht hs]
        constructor
        · intro x hx
          rw [pushPayload_calls] at hx
          rcases List.mem_cons.mp hx with hx | hx
          · subst hx; exact ht
          · exact (ih synth).1 x hx
        · calc (pushPayload c dat (processChunks synth rest)).payloads.length
              ≤ (processChunks synth rest).payloads.length + 1 :=
                pushPayload_payloads_len c dat _
            _ ≤ (processChunks synth rest).calls.length + 1 := by
                have := (ih synth).2; omega
            _ = (pushPayload c dat (processChunks synth rest)).calls.length :=
                by rw [pushPayload_calls, List.length_cons]

/-- C9: in every `generateSpeech` run, no empty or whitespace-only segment
ever reaches the synthesis capability (every call is for a segment whose
trimmed text is nonempty), and every collected payload stems from one of
those calls, so a skipped segment contributes no bytes and no position in
the combined audio. -/
theorem generateSpeech_skips_ws (synth : Str → SynthResponse) (fuel : Nat)
    (text : Str) (r : SpeechRun)
    (hr : generateSpeech synth fuel text = some r) :
    (∀ c ∈ r.calls, trim c ≠ []) ∧ r.payloads.length ≤ r.calls.length := by
  obtain ⟨chunks, _, hcalls, hpay, _⟩ :=
    generateSpeech_spec synth fuel text r hr
  rw [hcalls, hpay]
  exact processChunks_calls_trim chunks synth

/-- Witness for `generateSpeech_skips_ws` at the text
`"Hello.\n\n\nWorld."`, whose whitespace-only middle never reaches the
synthesis capability. -/
theorem generateSpeech_skips_ws_witness :
    generateSpeech synthConst 10 sampleText =
      some ⟨[sampleText], [[5, 6, 7]], Except.ok [5, 6, 7]⟩ ∧
    trim sampleText ≠ [] :=
  ⟨rfl, (generateSpeech_skips_ws synthConst 10 sampleText
      ⟨[sampleText], [[5, 6, 7]], Except.ok [5, 6, 7]⟩ rfl).1 sampleText
      (List.mem_singleton.mpr rfl)⟩

/-- C10: a successful synthesis call whose response carries no inline
audio payload is silently skipped: the segment is called, contributes no
bytes, and the loop continues with the remaining segments exactly as it
would have; only the aggregate zero-total check can later turn such empty
results into a failure, whereas a throwing call aborts at once. -/
theorem processChunks_empty_payload_continues (synth : Str → SynthResponse)
    (pre : List Str) (c : Str) (post : List Str)
    (hab : (processChunks synth pre).aborted = false)
    (ht : trim c ≠ []) (hs : synth c = SynthResponse.success none) :
    processChunks synth (pre ++ c :: post) =
      ⟨(processChunks synth pre).calls ++
         c :: (processChunks synth post).calls,
       (processChunks synth pre).payloads ++
         (processChunks synth post).payloads,
       (processChunks synth post).aborted⟩ := by
  induction pre with
  | nil =>
    rw [List.nil_append, processChunks_success ht hs]
    simp [processChunks, pushPayload]
  | cons p pre ih =>
    by_cases htp : trim p = []
    · rw [List.cons_append, processChunks_ws htp]
      rw [processChunks_ws htp] at hab
      rw [processChunks_ws htp]
      exact ih hab
    · cases hsp : synth p with
      | failure =>
        rw [processChunks_fail_eq htp hsp] at hab
        exact absurd hab (by simp)
      | success dat =>
        rw [processChunks_success htp hsp] at hab
        rw [pushPayload_aborted] at hab
        rw [List.cons_append, processChunks_success htp hsp, ih hab,
          processChunks_success htp hsp]
        cases dat with
        | none => simp [pushPayload]
        | some bs =>
          by_cases hbs : bs = []
          · simp [pushPayload, hbs]
          · simp [pushPayload, hbs]

/-- Witness for `processChunks_empty_payload_continues`: the middle
segment gets a call, adds no payload, and the following segment is still
processed. -/
theorem processChunks_empty_payload_continues_witness :
    (processChunks synthMark [['x']]).aborted = false ∧
    trim ['y'] ≠ [] ∧
    synthMark ['y'] = SynthResponse.success none ∧
    processChunks synthMark ([['x']] ++ ['y'] :: [['z']]) =
      ⟨(processChunks synthMark [['x']]).calls ++
         ['y'] :: (processChunks synthMark [['z']]).calls,
       (processChunks synthMark [['x']]).payloads ++
         (processChunks synthMark [['z']]).payloads,
       (processChunks synthMark [['z']]).aborted⟩ :=
  ⟨by decide, by decide, by decide,
    processChunks_empty_payload_continues synthMark [['x']] ['y'] [['z']]
      (by decide) (by decide) (by decide)⟩

end GeminiService
